import Mathlib

/-!
Verification development for the Hodgkin-Huxley action-potential example
(`ex4_HH.py`).  The script's own algorithmic content is the rate function
`HHRateFunction`; the STEPS simulation engine it drives (channel state
spaces, the stochastic gating engine, ohmic currents) is external library
code and is modelled here from the specification.

Real arithmetic stands in for Python floats; Python's raising `/` on a zero
divisor is modelled by an `Option`-valued division (`none` = the call raises
`ZeroDivisionError`).
-/

namespace Ex4HH

/-- Python `a / b` on floats: raises `ZeroDivisionError` when `b = 0`,
otherwise returns the quotient. -/
noncomputable def pyDiv (a b : ℝ) : Option ℝ :=
  if b = 0 then none else some (a / b)

/-- Python `math.isclose(a, b, rel_tol, abs_tol)`:
`|a - b| ≤ max (rel_tol * max |a| |b|) abs_tol`. -/
def isclose (a b rel_tol abs_tol : ℝ) : Prop :=
  |a - b| ≤ max (rel_tol * max |a| |b|) abs_tol

open Classical

/-- `HHRateFunction(celsius, A, B, C, D, F, H, V, abs_tol)` from
`ex4_HH.py` lines 71-80.  `thi` is the Q10 temperature factor, `num` and
`denom` the numerator and denominator of the rate law; when both are close
to zero (Python `math.isclose` with its default `rel_tol = 1e-9`) the
L'Hopital fallback branch is returned.  Every Python float division is a
`pyDiv`, so the result is `none` exactly when the call raises
`ZeroDivisionError`. -/
noncomputable def HHRateFunction (celsius A B C D F H V abs_tol : ℝ) : Option ℝ :=
  let thi := 1e3 * (3 : ℝ) ^ ((celsius - 6.3) / 10)
  match pyDiv (V * 1e3 + D) F with
  | none => none
  | some e =>
    let num := A + B * V * 1e3
    let denom := C + H * Real.exp e
    if isclose num 0 1e-9 abs_tol ∧ isclose denom 0 1e-9 abs_tol then
      pyDiv (thi * F * B) (H * Real.exp e)
    else
      pyDiv (thi * num) denom

/-- The Q10 temperature scaling factor used by `HHRateFunction`. -/
noncomputable def thi (celsius : ℝ) : ℝ :=
  1e3 * (3 : ℝ) ^ ((celsius - 6.3) / 10)

lemma thi_pos (celsius : ℝ) : 0 < thi celsius := by
  unfold thi
  positivity

/-- With `b = 0` and a nonnegative absolute tolerance, Python's `isclose`
(at its default relative tolerance `1e-9`) collapses to `|a| ≤ abs_tol`. -/
lemma isclose_zero_iff {a t : ℝ} (ht : 0 ≤ t) :
    isclose a 0 1e-9 t ↔ |a| ≤ t := by
  unfold isclose
  rw [sub_zero, abs_zero, max_eq_left (abs_nonneg a)]
  constructor
  · intro h
    rcases le_max_iff.mp h with h' | h'
    · nlinarith [abs_nonneg a]
    · exact h'
  · intro h
    exact le_max_of_le_right h

lemma pyDiv_ne_zero {a b : ℝ} (hb : b ≠ 0) : pyDiv a b = some (a / b) := by
  simp [pyDiv, hb]

lemma pyDiv_zero (a : ℝ) : pyDiv a 0 = none := by
  simp [pyDiv]

/-- Unfolding of `HHRateFunction` when `F ≠ 0`. -/
lemma HHRateFunction_of_F_ne_zero {celsius A B C D F H V abs_tol : ℝ}
    (hF : F ≠ 0) :
    HHRateFunction celsius A B C D F H V abs_tol =
      (if isclose (A + B * V * 1e3) 0 1e-9 abs_tol ∧
          isclose (C + H * Real.exp ((V * 1e3 + D) / F)) 0 1e-9 abs_tol then
        pyDiv (thi celsius * F * B) (H * Real.exp ((V * 1e3 + D) / F))
      else
        pyDiv (thi celsius * (A + B * V * 1e3))
          (C + H * Real.exp ((V * 1e3 + D) / F))) := by
  unfold HHRateFunction thi
  rw [pyDiv_ne_zero hF]

example : HHRateFunction 20 1 0 0 65 0 8 0 1e-13 = none := by
  unfold HHRateFunction
  rw [pyDiv_zero]

/-- Temperature for gating kinetics (`ex4_HH.py` line 89). -/
noncomputable def celsius : ℝ := 20.0

/-- Lower bound of the gating-kinetics voltage range (`Vrange`, line 95). -/
noncomputable def Vlo : ℝ := -100.0e-3

/-- Upper bound of the gating-kinetics voltage range (`Vrange`, line 95). -/
noncomputable def Vhi : ℝ := 50e-3

/-- `_a_n` (line 135): alpha rate of the potassium `n` gate. -/
noncomputable def a_n (V : ℝ) : Option ℝ :=
  HHRateFunction celsius (-0.55) (-0.01) (-1) 55 (-10) 1 V 1e-13

/-- `_b_n` (line 136): beta rate of the potassium `n` gate. -/
noncomputable def b_n (V : ℝ) : Option ℝ :=
  HHRateFunction celsius 1 0 0 65 80 8 V 1e-13

/-- `_a_m` (line 138): alpha rate of the sodium `m` gate. -/
noncomputable def a_m (V : ℝ) : Option ℝ :=
  HHRateFunction celsius (-4) (-0.1) (-1) 40 (-10) 1 V 1e-13

/-- `_b_m` (line 139): beta rate of the sodium `m` gate. -/
noncomputable def b_m (V : ℝ) : Option ℝ :=
  HHRateFunction celsius 1 0 0 65 18 0.25 V 1e-13

/-- `_a_h` (line 141): alpha rate of the sodium `h` gate. -/
noncomputable def a_h (V : ℝ) : Option ℝ :=
  HHRateFunction celsius 1 0 0 65 20 (1 / 0.07) V 1e-13

/-- `_b_h` (line 142): beta rate of the sodium `h` gate. -/
noncomputable def b_h (V : ℝ) : Option ℝ :=
  HHRateFunction celsius 1 0 1 35 (-10) 1 V 1e-13

lemma isclose_zero_zero {r t : ℝ} (ht : 0 ≤ t) : isclose 0 0 r t := by
  unfold isclose
  simp only [sub_zero, abs_zero]
  exact le_max_of_le_right ht

/-- For the parameter families with `A = 1`, `B = 0`, `C ≥ 0`, `H > 0`
(the beta-n, beta-m, alpha-h and beta-h constant sets), the numerator is
the constant `1`, the guard is false, and a positive direct-formula value
is returned. -/
lemma direct_of_A_one_B_zero (cel C D F H V : ℝ) (hF : F ≠ 0)
    (hC : 0 ≤ C) (hH : 0 < H) :
    HHRateFunction cel 1 0 C D F H V 1e-13 =
      some (thi cel * (1 + 0 * V * 1e3) /
        (C + H * Real.exp ((V * 1e3 + D) / F))) ∧
    ¬ isclose (1 + 0 * V * 1e3) 0 1e-9 1e-13 ∧
    0 < thi cel * (1 + 0 * V * 1e3) /
        (C + H * Real.exp ((V * 1e3 + D) / F)) := by
  have hnum : (1 : ℝ) + 0 * V * 1e3 = 1 := by ring
  have hdenom : 0 < C + H * Real.exp ((V * 1e3 + D) / F) := by positivity
  have hguard : ¬ isclose (1 + 0 * V * 1e3) 0 1e-9 1e-13 := by
    rw [isclose_zero_iff (by norm_num), hnum]
    norm_num
  refine ⟨?_, hguard, ?_⟩
  · rw [HHRateFunction_of_F_ne_zero hF, if_neg (fun h => hguard h.1),
      pyDiv_ne_zero hdenom.ne']
  · have hthi := thi_pos cel
    rw [hnum]
    positivity

/-- For the parameter family `A = B * D`, `C = -1`, `H = 1` with `B < 0`
and `F < 0` (the alpha-n and alpha-m constant sets), the function always
returns a positive value: away from `V' = -D` both numerator and
denominator share a sign, and at or near it the fallback limit
`thi * F * B / exp ((V' + D) / F)` is positive. -/
lemma pos_of_singular_family (cel B D F V : ℝ) (hB : B < 0) (hF : F < 0) :
    ∃ r, HHRateFunction cel (B * D) B (-1) D F 1 V 1e-13 = some r ∧ 0 < r := by
  have hthi := thi_pos cel
  have hexp : 0 < Real.exp ((V * 1e3 + D) / F) := Real.exp_pos _
  have hnum : B * D + B * V * 1e3 = B * (V * 1e3 + D) := by ring
  rw [HHRateFunction_of_F_ne_zero hF.ne]
  by_cases hg : isclose (B * D + B * V * 1e3) 0 1e-9 1e-13 ∧
      isclose (-1 + 1 * Real.exp ((V * 1e3 + D) / F)) 0 1e-9 1e-13
  · rw [if_pos hg, pyDiv_ne_zero (by positivity : (1 : ℝ) * Real.exp ((V * 1e3 + D) / F) ≠ 0)]
    refine ⟨_, rfl, ?_⟩
    have hFB : 0 < F * B := mul_pos_of_neg_of_neg hF hB
    have : 0 < thi cel * F * B := by
      rw [mul_assoc]
      positivity
    positivity
  · rw [if_neg hg]
    have ht : V * 1e3 + D ≠ 0 := by
      intro h0
      apply hg
      constructor
      · have : B * D + B * V * 1e3 = 0 := by rw [hnum, h0, mul_zero]
        rw [this]
        exact isclose_zero_zero (by norm_num)
      · have : (-1 : ℝ) + 1 * Real.exp ((V * 1e3 + D) / F) = 0 := by
          rw [h0, zero_div, Real.exp_zero]
          ring
        rw [this]
        exact isclose_zero_zero (by norm_num)
    rcases lt_or_gt_of_ne ht with htneg | htpos
    · have hnpos : 0 < B * D + B * V * 1e3 := by
        rw [hnum]
        exact mul_pos_of_neg_of_neg hB htneg
      have hepos : 0 < (V * 1e3 + D) / F := div_pos_iff.mpr (Or.inr ⟨htneg, hF⟩)
      have hdpos : 0 < -1 + 1 * Real.exp ((V * 1e3 + D) / F) := by
        have := Real.one_lt_exp_iff.mpr hepos
        linarith
      rw [pyDiv_ne_zero hdpos.ne']
      exact ⟨_, rfl, div_pos (by positivity) hdpos⟩
    · have hnneg : B * D + B * V * 1e3 < 0 := by
        rw [hnum]
        exact mul_neg_of_neg_of_pos hB htpos
      have heneg : (V * 1e3 + D) / F < 0 := div_neg_of_pos_of_neg htpos hF
      have hdneg : -1 + 1 * Real.exp ((V * 1e3 + D) / F) < 0 := by
        have := Real.exp_lt_one_iff.mpr heneg
        linarith
      rw [pyDiv_ne_zero hdneg.ne]
      refine ⟨_, rfl, div_pos_iff.mpr (Or.inr ⟨?_, hdneg⟩)⟩
      exact mul_neg_of_pos_of_neg hthi hnneg

/-- C1 (amended): for every temperature, constants `A B C D H F` with `F`
nonzero, and voltage `V` such that the numerator and the denominator are
not both within absolute tolerance `1e-13` of zero, and additionally the
denominator is nonzero, `HHRateFunction` returns
`thi * (A + B * V') / (C + H * exp ((V' + D) / F))` with `V' = V * 1e3`. -/
theorem C1_direct_formula (cel A B C D F H V : ℝ) (hF : F ≠ 0)
    (hdenom : C + H * Real.exp ((V * 1e3 + D) / F) ≠ 0)
    (hnot : ¬ (isclose (A + B * V * 1e3) 0 1e-9 1e-13 ∧
        isclose (C + H * Real.exp ((V * 1e3 + D) / F)) 0 1e-9 1e-13)) :
    HHRateFunction cel A B C D F H V 1e-13 =
      some (thi cel * (A + B * V * 1e3) /
        (C + H * Real.exp ((V * 1e3 + D) / F))) := by
  rw [HHRateFunction_of_F_ne_zero hF, if_neg hnot, pyDiv_ne_zero hdenom]

/-- Witness for C1 at the beta-n constants and `V = 0`. -/
theorem C1_direct_formula_witness :
    HHRateFunction 20 1 0 0 65 80 8 0 1e-13 =
      some (thi 20 * (1 + 0 * 0 * 1e3) /
        (0 + 8 * Real.exp ((0 * 1e3 + 65) / 80))) := by
  refine C1_direct_formula 20 1 0 0 65 80 8 0 (by norm_num) (by positivity) ?_
  intro h
  have h1 := (isclose_zero_iff (by norm_num)).mp h.1
  norm_num at h1

/-- Counterexample to C1 as stated: at `A = 5`, `B = 0`, `C = -1`,
`D = 0`, `F = 1`, `H = 1`, `V = 0` the numerator is `5` (far from zero, so
the claim's hypothesis holds with `F ≠ 0`), but the denominator is exactly
`0`, so the call raises `ZeroDivisionError` (`none`) instead of returning
the direct formula. -/
theorem C1_counterexample :
    ¬ isclose ((5 : ℝ) + 0 * 0 * 1e3) 0 1e-9 1e-13 ∧
    HHRateFunction 20 5 0 (-1) 0 1 1 0 1e-13 = none ∧
    HHRateFunction 20 5 0 (-1) 0 1 1 0 1e-13 ≠
      some (thi 20 * (5 + 0 * 0 * 1e3) /
        (-1 + 1 * Real.exp ((0 * 1e3 + 0) / 1))) := by
  have hnum : ¬ isclose ((5 : ℝ) + 0 * 0 * 1e3) 0 1e-9 1e-13 := by
    rw [isclose_zero_iff (by norm_num)]
    norm_num
  have hnone : HHRateFunction 20 5 0 (-1) 0 1 1 0 1e-13 = none := by
    rw [HHRateFunction_of_F_ne_zero (by norm_num : (1 : ℝ) ≠ 0),
      if_neg (fun h => hnum h.1)]
    have hd : (-1 : ℝ) + 1 * Real.exp (((0 : ℝ) * 1e3 + 0) / 1) = 0 := by
      norm_num [Real.exp_zero]
    rw [hd, pyDiv_zero]
  refine ⟨hnum, hnone, ?_⟩
  rw [hnone]
  simp

/-- C2 (amended): whenever `F ≠ 0`, `H ≠ 0` and both the numerator and the
denominator are numerically zero within the absolute tolerance,
`HHRateFunction` does not compute `0/0` but returns the L'Hopital-style
limit `thi * F * B / (H * exp ((V' + D) / F))`, whose denominator is
nonzero (the value is finite). -/
theorem C2_lhopital_limit (cel A B C D F H V : ℝ) (hF : F ≠ 0) (hH : H ≠ 0)
    (hclose : isclose (A + B * V * 1e3) 0 1e-9 1e-13 ∧
        isclose (C + H * Real.exp ((V * 1e3 + D) / F)) 0 1e-9 1e-13) :
    HHRateFunction cel A B C D F H V 1e-13 =
      some (thi cel * F * B / (H * Real.exp ((V * 1e3 + D) / F))) ∧
    H * Real.exp ((V * 1e3 + D) / F) ≠ 0 := by
  have hne : H * Real.exp ((V * 1e3 + D) / F) ≠ 0 :=
    mul_ne_zero hH (Real.exp_ne_zero _)
  exact ⟨by rw [HHRateFunction_of_F_ne_zero hF, if_pos hclose,
    pyDiv_ne_zero hne], hne⟩

/-- Witness for C2 at the alpha-n constants, at the removable singularity
`V = -55 mV` where numerator and denominator vanish exactly. -/
theorem C2_lhopital_limit_witness :
    HHRateFunction 20 (-0.55) (-0.01) (-1) 55 (-10) 1 (-55e-3) 1e-13 =
      some (thi 20 * (-10) * (-0.01) /
        (1 * Real.exp (((-55e-3) * 1e3 + 55) / (-10)))) := by
  have harg : ((-55e-3 : ℝ) * 1e3 + 55) / (-10) = 0 := by norm_num
  refine (C2_lhopital_limit 20 (-0.55) (-0.01) (-1) 55 (-10) 1 (-55e-3)
    (by norm_num) (by norm_num) ⟨?_, ?_⟩).1
  · have h0 : (-0.55 : ℝ) + (-0.01) * (-55e-3) * 1e3 = 0 := by norm_num
    rw [h0]
    exact isclose_zero_zero (by norm_num)
  · have h0 : (-1 : ℝ) + 1 * Real.exp (((-55e-3) * 1e3 + 55) / (-10)) = 0 := by
      rw [harg, Real.exp_zero]
      ring
    rw [h0]
    exact isclose_zero_zero (by norm_num)

/-- Counterexample to C2 as stated: at `A = B = C = D = 0`, `F = 1`,
`H = 0`, `V = 0` both the numerator (`0`) and the denominator (`0`) are
numerically zero within the tolerance, but the fallback expression divides
by `H * exp(...) = 0`: the call raises `ZeroDivisionError` (`none`)
instead of returning a finite limit. -/
theorem C2_counterexample :
    isclose ((0 : ℝ) + 0 * 0 * 1e3) 0 1e-9 1e-13 ∧
    isclose ((0 : ℝ) + 0 * Real.exp (((0 : ℝ) * 1e3 + 0) / 1)) 0 1e-9 1e-13 ∧
    HHRateFunction 20 0 0 0 0 1 0 0 1e-13 = none ∧
    HHRateFunction 20 0 0 0 0 1 0 0 1e-13 ≠
      some (thi 20 * 1 * 0 / (0 * Real.exp ((0 * 1e3 + 0) / 1))) := by
  have hc1 : isclose ((0 : ℝ) + 0 * 0 * 1e3) 0 1e-9 1e-13 := by
    rw [show (0 : ℝ) + 0 * 0 * 1e3 = 0 by ring]
    exact isclose_zero_zero (by norm_num)
  have hc2 : isclose ((0 : ℝ) + 0 * Real.exp (((0 : ℝ) * 1e3 + 0) / 1))
      0 1e-9 1e-13 := by
    rw [show (0 : ℝ) + 0 * Real.exp (((0 : ℝ) * 1e3 + 0) / 1) = 0 by ring]
    exact isclose_zero_zero (by norm_num)
  have hnone : HHRateFunction 20 0 0 0 0 1 0 0 1e-13 = none := by
    rw [HHRateFunction_of_F_ne_zero (by norm_num : (1 : ℝ) ≠ 0),
      if_pos ⟨hc1, hc2⟩,
      show (0 : ℝ) * Real.exp (((0 : ℝ) * 1e3 + 0) / 1) = 0 by ring,
      pyDiv_zero]
  refine ⟨hc1, hc2, hnone, ?_⟩
  rw [hnone]
  simp

/-- C4 (amended): for every input with `F` nonzero and denominator nonzero
where the numerator or the denominator exceeds the absolute tolerance
`1e-13` in magnitude, `HHRateFunction` returns exactly the direct formula
`thi * (A + B * V') / (C + H * exp ((V' + D) / F))`; inputs whose numerator
and denominator are both nonzero but within the tolerance take the
L'Hopital fallback branch instead. -/
theorem C4_direct_formula (cel A B C D F H V : ℝ) (hF : F ≠ 0)
    (hdenom : C + H * Real.exp ((V * 1e3 + D) / F) ≠ 0)
    (hfar : 1e-13 < |A + B * V * 1e3| ∨
        1e-13 < |C + H * Real.exp ((V * 1e3 + D) / F)|) :
    HHRateFunction cel A B C D F H V 1e-13 =
      some (thi cel * (A + B * V * 1e3) /
        (C + H * Real.exp ((V * 1e3 + D) / F))) := by
  have hnot : ¬ (isclose (A + B * V * 1e3) 0 1e-9 1e-13 ∧
      isclose (C + H * Real.exp ((V * 1e3 + D) / F)) 0 1e-9 1e-13) := by
    intro h
    have h1 := (isclose_zero_iff (by norm_num)).mp h.1
    have h2 := (isclose_zero_iff (by norm_num)).mp h.2
    rcases hfar with hfar | hfar <;> linarith
  rw [HHRateFunction_of_F_ne_zero hF, if_neg hnot, pyDiv_ne_zero hdenom]

/-- Witness for C4 at the beta-h constants and `V = 0`. -/
theorem C4_direct_formula_witness :
    HHRateFunction 20 1 0 1 35 (-10) 1 0 1e-13 =
      some (thi 20 * (1 + 0 * 0 * 1e3) /
        (1 + 1 * Real.exp ((0 * 1e3 + 35) / (-10)))) := by
  refine C4_direct_formula 20 1 0 1 35 (-10) 1 0 (by norm_num) (by positivity)
    (Or.inl ?_)
  norm_num

/-- Counterexample to C4 as stated: at `celsius = 6.3`, `A = 1e-14`,
`B = 0`, `C = 0`, `D = 0`, `F = 1`, `H = 1e-14`, `V = 0` the numerator
`1e-14` and the denominator `1e-14` are both nonzero (so the claim's
"not both exactly 0" hypothesis holds), yet both lie within the tolerance
`1e-13`: the code takes the fallback branch and returns `0`, while the
direct formula evaluates to `1000`. -/
theorem C4_counterexample :
    ((1e-14 : ℝ) + 0 * 0 * 1e3 ≠ 0) ∧
    ((0 : ℝ) + 1e-14 * Real.exp (((0 : ℝ) * 1e3 + 0) / 1) ≠ 0) ∧
    HHRateFunction 6.3 1e-14 0 0 0 1 1e-14 0 1e-13 = some 0 ∧
    thi 6.3 * ((1e-14 : ℝ) + 0 * 0 * 1e3) /
        ((0 : ℝ) + 1e-14 * Real.exp (((0 : ℝ) * 1e3 + 0) / 1)) = 1000 ∧
    HHRateFunction 6.3 1e-14 0 0 0 1 1e-14 0 1e-13 ≠
      some (thi 6.3 * ((1e-14 : ℝ) + 0 * 0 * 1e3) /
        ((0 : ℝ) + 1e-14 * Real.exp (((0 : ℝ) * 1e3 + 0) / 1))) := by
  have harg : ((0 : ℝ) * 1e3 + 0) / 1 = 0 := by norm_num
  have hthi : thi 6.3 = 1000 := by
    unfold thi
    norm_num
  have hdenomval : (0 : ℝ) + 1e-14 * Real.exp (((0 : ℝ) * 1e3 + 0) / 1) = 1e-14 := by
    rw [harg, Real.exp_zero]
    norm_num
  have hc1 : isclose ((1e-14 : ℝ) + 0 * 0 * 1e3) 0 1e-9 1e-13 := by
    rw [isclose_zero_iff (by norm_num), abs_of_nonneg (by norm_num)]
    norm_num
  have hc2 : isclose ((0 : ℝ) + 1e-14 * Real.exp (((0 : ℝ) * 1e3 + 0) / 1))
      0 1e-9 1e-13 := by
    rw [hdenomval, isclose_zero_iff (by norm_num), abs_of_nonneg (by norm_num)]
    norm_num
  have hres : HHRateFunction 6.3 1e-14 0 0 0 1 1e-14 0 1e-13 = some 0 := by
    rw [HHRateFunction_of_F_ne_zero (by norm_num : (1 : ℝ) ≠ 0),
      if_pos ⟨hc1, hc2⟩,
      pyDiv_ne_zero (by rw [harg, Real.exp_zero]; norm_num :
        (1e-14 : ℝ) * Real.exp (((0 : ℝ) * 1e3 + 0) / 1) ≠ 0)]
    norm_num
  have hval : thi 6.3 * ((1e-14 : ℝ) + 0 * 0 * 1e3) /
      ((0 : ℝ) + 1e-14 * Real.exp (((0 : ℝ) * 1e3 + 0) / 1)) = 1000 := by
    rw [hdenomval, hthi]
    norm_num
  refine ⟨by norm_num, by rw [hdenomval]; norm_num, hres, hval, ?_⟩
  rw [hres, hval]
  intro h
  have := Option.some.inj h
  norm_num at this

/-- C7: each of the six gating rate laws of the model (alpha/beta of the
`n`, `m` and `h` gates, with their fixed constants at `celsius = 20`)
returns a nonnegative value at every voltage in the operating range
`[Vlo, Vhi] = [-100e-3, 50e-3]` volts. -/
theorem C7_rates_nonneg (V : ℝ) (_hlo : Vlo ≤ V) (_hhi : V ≤ Vhi) :
    (∃ r, a_n V = some r ∧ 0 ≤ r) ∧ (∃ r, b_n V = some r ∧ 0 ≤ r) ∧
    (∃ r, a_m V = some r ∧ 0 ≤ r) ∧ (∃ r, b_m V = some r ∧ 0 ≤ r) ∧
    (∃ r, a_h V = some r ∧ 0 ≤ r) ∧ (∃ r, b_h V = some r ∧ 0 ≤ r) := by
  refine ⟨?_, ?_, ?_, ?_, ?_, ?_⟩
  · obtain ⟨r, hr, hrpos⟩ := pos_of_singular_family celsius (-0.01) 55 (-10) V
      (by norm_num) (by norm_num)
    refine ⟨r, ?_, hrpos.le⟩
    rw [a_n, show (-0.55 : ℝ) = (-0.01) * 55 by norm_num]
    exact hr
  · obtain ⟨hb, -, hpos⟩ := direct_of_A_one_B_zero celsius 0 65 80 8 V
      (by norm_num) (by norm_num) (by norm_num)
    exact ⟨_, by rw [b_n, hb], hpos.le⟩
  · obtain ⟨r, hr, hrpos⟩ := pos_of_singular_family celsius (-0.1) 40 (-10) V
      (by norm_num) (by norm_num)
    refine ⟨r, ?_, hrpos.le⟩
    rw [a_m, show (-4 : ℝ) = (-0.1) * 40 by norm_num]
    exact hr
  · obtain ⟨hb, -, hpos⟩ := direct_of_A_one_B_zero celsius 0 65 18 0.25 V
      (by norm_num) (by norm_num) (by norm_num)
    exact ⟨_, by rw [b_m, hb], hpos.le⟩
  · obtain ⟨hb, -, hpos⟩ := direct_of_A_one_B_zero celsius 0 65 20 (1 / 0.07) V
      (by norm_num) (by norm_num) (by norm_num)
    exact ⟨_, by rw [a_h, hb], hpos.le⟩
  · obtain ⟨hb, -, hpos⟩ := direct_of_A_one_B_zero celsius 1 35 (-10) 1 V
      (by norm_num) (by norm_num) (by norm_num)
    exact ⟨_, by rw [b_h, hb], hpos.le⟩

/-- Witness for C7 at `V = 0`, inside the operating range. -/
theorem C7_rates_nonneg_witness :
    Vlo ≤ (0 : ℝ) ∧ (0 : ℝ) ≤ Vhi ∧
    ((∃ r, a_n 0 = some r ∧ 0 ≤ r) ∧ (∃ r, b_n 0 = some r ∧ 0 ≤ r) ∧
     (∃ r, a_m 0 = some r ∧ 0 ≤ r) ∧ (∃ r, b_m 0 = some r ∧ 0 ≤ r) ∧
     (∃ r, a_h 0 = some r ∧ 0 ≤ r) ∧ (∃ r, b_h 0 = some r ∧ 0 ≤ r)) :=
  ⟨by norm_num [Vlo], by norm_num [Vhi],
    C7_rates_nonneg 0 (by norm_num [Vlo]) (by norm_num [Vhi])⟩

/-- C9: `HHRateFunction` is partial in `F`: with `F = 0` the expression
`(V * 1e3 + D) / F` raises `ZeroDivisionError` on every call path, so the
call returns no value at all. -/
theorem C9_F_zero_raises (cel A B C D H V abs_tol : ℝ) :
    HHRateFunction cel A B C D 0 H V abs_tol = none := by
  unfold HHRateFunction
  rw [pyDiv_zero]

/-- C10: the three rate laws instantiated with `A = 1`, `B = 0` (the
beta-n, beta-m and alpha-h constant sets) have constant numerator `1`, so
the fallback branch is unreachable and the direct formula
`thi * 1 / (C + H * exp ((V' + D) / F))` is always returned. -/
theorem C10_fallback_unreachable (V : ℝ) :
    ((1 : ℝ) + 0 * V * 1e3 = 1) ∧
    ¬ isclose (1 + 0 * V * 1e3) 0 1e-9 1e-13 ∧
    b_n V = some (thi celsius * 1 / (0 + 8 * Real.exp ((V * 1e3 + 65) / 80))) ∧
    b_m V = some (thi celsius * 1 / (0 + 0.25 * Real.exp ((V * 1e3 + 65) / 18))) ∧
    a_h V = some (thi celsius * 1 /
      (0 + 1 / 0.07 * Real.exp ((V * 1e3 + 65) / 20))) := by
  have hnum : (1 : ℝ) + 0 * V * 1e3 = 1 := by ring
  obtain ⟨hbn, hg, _⟩ := direct_of_A_one_B_zero celsius 0 65 80 8 V
    (by norm_num) (by norm_num) (by norm_num)
  obtain ⟨hbm, -, -⟩ := direct_of_A_one_B_zero celsius 0 65 18 0.25 V
    (by norm_num) (by norm_num) (by norm_num)
  obtain ⟨hah, -, -⟩ := direct_of_A_one_B_zero celsius 0 65 20 (1 / 0.07) V
    (by norm_num) (by norm_num) (by norm_num)
  rw [hnum] at hbn hbm hah
  exact ⟨hnum, hg, by rw [b_n, hbn], by rw [b_m, hbm], by rw [a_h, hah]⟩

/-!
The STEPS stochastic gating engine driven by the script is external
library code; the following definitions model it from the specification
(section 4.3 of the spec).
-/

/-- Modelled from the spec: one SSA transition event of the stochastic
gating engine for a single surface element and channel type — it moves one
channel from the source `ChannelState` to the destination `ChannelState`;
`rate` is the per-channel voltage-dependent rate at the element's local
voltage when the event fires.  (The engine itself is STEPS `Tetexact`
library code, not part of `ex4_HH.py`.) -/
structure Event (σ : Type) where
  src : σ
  dst : σ
  rate : ℝ

/-- Modelled from the spec: SSA propensity of an event,
`count_in_source_state × per-channel rate`. -/
def propensity {σ : Type} (counts : σ → ℤ) (e : Event σ) : ℝ :=
  (counts e.src : ℝ) * e.rate

/-- Modelled from the spec: firing an event moves exactly one channel from
the source state to the destination state. -/
def fire {σ : Type} [DecidableEq σ] (counts : σ → ℤ) (e : Event σ) : σ → ℤ :=
  fun s => counts s - (if s = e.src then 1 else 0) + (if s = e.dst then 1 else 0)

/-- Modelled from the spec: the population counts after a finite sequence
of fired SSA events (covering any `Δt > 0` and any sequence of local
voltages, which only influence which events appear in the list). -/
def runEvents {σ : Type} [DecidableEq σ] (counts : σ → ℤ) :
    List (Event σ) → σ → ℤ
  | [] => counts
  | e :: es => runEvents (fire counts e) es

/-- Modelled from the spec: an event sequence the SSA event-selection
logic can actually produce — each event is selected with positive
propensity at the moment it fires (a transition with zero propensity,
in particular one whose source state is empty, is never selected). -/
def admissible {σ : Type} [DecidableEq σ] (counts : σ → ℤ) :
    List (Event σ) → Prop
  | [] => True
  | e :: es => 0 < propensity counts e ∧ admissible (fire counts e) es

lemma sum_fire {σ : Type} [Fintype σ] [DecidableEq σ] (counts : σ → ℤ)
    (e : Event σ) : ∑ s, fire counts e s = ∑ s, counts s := by
  unfold fire
  rw [Finset.sum_add_distrib, Finset.sum_sub_distrib]
  simp [Finset.sum_ite_eq']

/-- C3: for every channel type on every element, the sum of population
counts over all channel states is unchanged by any sequence of gating
steps: transitions redistribute population, never create or destroy
channels. -/
theorem C3_count_conservation (σ : Type) [Fintype σ] [DecidableEq σ]
    (counts : σ → ℤ) (es : List (Event σ)) :
    ∑ s, runEvents counts es s = ∑ s, counts s := by
  induction es generalizing counts with
  | nil => rfl
  | cons e es ih => rw [runEvents, ih, sum_fire]

lemma fire_nonneg {σ : Type} [DecidableEq σ] {counts : σ → ℤ} {e : Event σ}
    (hpos : ∀ s, 0 ≤ counts s) (hp : 0 < propensity counts e) :
    ∀ s, 0 ≤ fire counts e s := by
  have hne : counts e.src ≠ 0 := by
    intro h0
    rw [propensity, h0] at hp
    simp at hp
  have hsrc : 1 ≤ counts e.src := by
    have := hpos e.src
    omega
  intro s
  have hs := hpos s
  unfold fire
  by_cases h1 : s = e.src
  · rw [if_pos h1, h1]
    split <;> omega
  · rw [if_neg h1]
    split <;> omega

lemma runEvents_nonneg {σ : Type} [DecidableEq σ] (counts : σ → ℤ)
    (es : List (Event σ)) (hpos : ∀ s, 0 ≤ counts s)
    (hadm : admissible counts es) : ∀ s, 0 ≤ runEvents counts es s := by
  induction es generalizing counts with
  | nil => exact fun s => hpos s
  | cons e es ih =>
    obtain ⟨hp, hadm'⟩ := hadm
    exact ih (fire counts e) (fire_nonneg hpos hp) hadm'

/-- C5: population counts never become negative: an admissible event
sequence (each event selected with positive propensity) keeps all counts
nonnegative, and this is structural — the propensity of a transition whose
source state has count zero is itself zero, so event selection can never
pick it. -/
theorem C5_counts_nonneg (σ : Type) [DecidableEq σ] (counts : σ → ℤ)
    (es : List (Event σ)) (hpos : ∀ s, 0 ≤ counts s)
    (hadm : admissible counts es) :
    (∀ s, 0 ≤ runEvents counts es s) ∧
    (∀ e : Event σ, counts e.src = 0 → propensity counts e = 0) := by
  refine ⟨runEvents_nonneg counts es hpos hadm, fun e h0 => ?_⟩
  rw [propensity, h0]
  simp

/-- Witness for C5: two states, one channel in each, one admissible
transition event. -/
theorem C5_counts_nonneg_witness :
    (∀ s : Fin 2, 0 ≤ runEvents (fun _ => (1 : ℤ)) [⟨0, 1, 1⟩] s) ∧
    (∀ e : Event (Fin 2), (fun _ => (1 : ℤ)) e.src = 0 →
      propensity (fun _ => (1 : ℤ)) e = 0) := by
  refine C5_counts_nonneg (Fin 2) (fun _ => 1) [⟨0, 1, 1⟩]
    (fun s => by norm_num) ?_
  refine ⟨?_, trivial⟩
  rw [propensity]
  norm_num

/-!
The combinatorial channel state space built by STEPS `Channel.Create` is
external library code; it is modelled here from the specification
(section 4.2 of the spec).
-/

/-- Modelled from the spec: the state space of a channel with `n` subunit
instances whose subunit state sets have sizes `k 0, …, k (n-1)` is the
Cartesian product — a `ChannelState` assigns each subunit position one of
its subunit states. -/
abbrev ChannelState (n : ℕ) (k : Fin n → ℕ) : Type :=
  ∀ i : Fin n, Fin (k i)

/-- Modelled from the spec: two channel states are adjacent (a transition
slot is registered between them) iff they differ in exactly one subunit
position. -/
def Adjacent {n : ℕ} {k : Fin n → ℕ} (s t : ChannelState n k) : Prop :=
  ∃ i, s i ≠ t i ∧ ∀ j, j ≠ i → s j = t j

/-- Subunit sizes of the potassium channel `VGKC = Channel.Create([KSU]*4)`:
four subunits, each over the two states `[Ko, Kc]`. -/
def VGKC_sizes : Fin 4 → ℕ := fun _ => 2

/-- Subunit sizes of the sodium channel
`VGNaC = Channel.Create([NamSU, NamSU, NamSU, NahSU])`: three `m` subunits
over `[Na_mo, Na_mc]` and one `h` subunit over `[Na_hi, Na_ha]`, each with
two states. -/
def VGNaC_sizes : Fin 4 → ℕ := fun _ => 2

/-- Replacing one subunit state of `s` by a different value yields a state
adjacent to `s`. -/
def updNeighbor {n : ℕ} {k : Fin n → ℕ} (s : ChannelState n k)
    (x : Σ i : Fin n, {v : Fin (k i) // v ≠ s i}) :
    {t : ChannelState n k // Adjacent s t} :=
  ⟨Function.update s x.1 x.2.1,
    ⟨x.1, by rw [Function.update_same]; exact Ne.symm x.2.2,
      fun j hj => (Function.update_noteq hj _ _).symm⟩⟩

lemma updNeighbor_injective {n : ℕ} {k : Fin n → ℕ} (s : ChannelState n k) :
    Function.Injective (updNeighbor s) := by
  rintro ⟨i, v, hv⟩ ⟨i', v', hv'⟩ h
  have h' : Function.update s i v = Function.update s i' v' :=
    congrArg Subtype.val h
  by_cases hii : i = i'
  · subst hii
    have hvv : v = v' := by
      have := congrFun h' i
      rwa [Function.update_same, Function.update_same] at this
    subst hvv
    rfl
  · exfalso
    have := congrFun h' i
    rw [Function.update_same, Function.update_noteq hii] at this
    exact hv this

lemma updNeighbor_surjective {n : ℕ} {k : Fin n → ℕ} (s : ChannelState n k) :
    Function.Surjective (updNeighbor s) := by
  rintro ⟨t, i, hne, hrest⟩
  refine ⟨⟨i, t i, Ne.symm hne⟩, Subtype.ext (funext fun j => ?_)⟩
  show Function.update s i (t i) j = t j
  by_cases hj : j = i
  · subst hj
    rw [Function.update_same]
  · rw [Function.update_noteq hj]
    exact hrest j hj

lemma card_neighbors {n : ℕ} (k : Fin n → ℕ) (s : ChannelState n k) :
    Fintype.card {t : ChannelState n k // Adjacent s t} = ∑ i, (k i - 1) := by
  rw [← Fintype.card_congr (Equiv.ofBijective (updNeighbor s)
    ⟨updNeighbor_injective s, updNeighbor_surjective s⟩)]
  rw [Fintype.card_sigma]
  refine Finset.sum_congr rfl fun i _ => ?_
  rw [Fintype.card_subtype_compl, Fintype.card_subtype_eq, Fintype.card_fin]

lemma card_channelState {n : ℕ} (k : Fin n → ℕ) :
    Fintype.card (ChannelState n k) = ∏ i, k i := by
  rw [Fintype.card_pi]
  exact Finset.prod_congr rfl fun i _ => Fintype.card_fin _

lemma not_adjacent_self {n : ℕ} {k : Fin n → ℕ} (s : ChannelState n k) :
    ¬ Adjacent s s := by
  rintro ⟨i, hne, -⟩
  exact hne rfl

/-- C6: a channel built from `n` subunit instances with state-set sizes
`k 0, …, k (n-1)` has exactly `∏ k i` channel states, each state has
exactly `∑ (k i - 1)` neighbors (states differing in exactly one subunit
position), and no state is adjacent to itself; in particular the
potassium channel `VGKC` and the sodium channel `VGNaC` (four two-state
subunits each) have `2^4 = 16` states with `4` neighbors each. -/
theorem C6_state_space :
    (∀ (n : ℕ) (k : Fin n → ℕ) (s : ChannelState n k),
        Fintype.card (ChannelState n k) = ∏ i, k i ∧
        Fintype.card {t : ChannelState n k // Adjacent s t} = ∑ i, (k i - 1) ∧
        ¬ Adjacent s s) ∧
    (Fintype.card (ChannelState 4 VGKC_sizes) = 16 ∧
      ∀ s : ChannelState 4 VGKC_sizes,
        Fintype.card {t : ChannelState 4 VGKC_sizes // Adjacent s t} = 4) ∧
    (Fintype.card (ChannelState 4 VGNaC_sizes) = 16 ∧
      ∀ s : ChannelState 4 VGNaC_sizes,
        Fintype.card {t : ChannelState 4 VGNaC_sizes // Adjacent s t} = 4) := by
  refine ⟨fun n k s => ⟨card_channelState k, card_neighbors k s,
    not_adjacent_self s⟩, ⟨?_, fun s => ?_⟩, ⟨?_, fun s => ?_⟩⟩
  · rw [card_channelState]
    simp [VGKC_sizes]
  · rw [card_neighbors]
    simp [VGKC_sizes]
  · rw [card_channelState]
    simp [VGNaC_sizes]
  · rw [card_neighbors]
    simp [VGNaC_sizes]

/-!
Ohmic currents.  `OhmicCurr.Create` is external STEPS library code; it is
modelled here from the specification (section 4.4 of the spec), with the
single-channel conductances and reversal potentials taken from
`ex4_HH.py` lines 33-57.
-/

/-- Potassium single-channel conductance (line 33), Siemens. -/
noncomputable def K_G : ℝ := 20.0e-12

/-- Potassium reversal potential (line 39), volts. -/
noncomputable def K_rev : ℝ := -77e-3

/-- Sodium single-channel conductance (line 42), Siemens. -/
noncomputable def Na_G : ℝ := 20.0e-12

/-- Sodium reversal potential (line 48), volts. -/
noncomputable def Na_rev : ℝ := 50e-3

/-- Leak single-channel conductance (line 51), Siemens. -/
noncomputable def L_G : ℝ := 0.3e-12

/-- Leak reversal potential (line 57), volts. -/
noncomputable def leak_rev : ℝ := -54.4e-3

/-- Modelled from the spec: an `OhmicCurr.Create` specification binds one
designated fully-open channel state to a single-channel conductance and a
reversal potential. -/
structure OhmicCurrentSpec (σ : Type) where
  openState : σ
  conductance : ℝ
  reversal : ℝ

/-- Modelled from the spec: transmembrane current of one ohmic current
spec on one element,
`I = count_open * single_channel_conductance * (V_local - V_reversal)`. -/
def ohmicCurrent {σ : Type} (oc : OhmicCurrentSpec σ) (counts : σ → ℤ)
    (V : ℝ) : ℝ :=
  (counts oc.openState : ℝ) * oc.conductance * (V - oc.reversal)

/-- Modelled from the spec: the current contributed by the channels in one
given channel state — nonzero only for the designated open state. -/
def stateCurrent {σ : Type} [DecidableEq σ] (oc : OhmicCurrentSpec σ)
    (counts : σ → ℤ) (V : ℝ) (s : σ) : ℝ :=
  if s = oc.openState then
    (counts s : ℝ) * oc.conductance * (V - oc.reversal)
  else 0

/-- Modelled from the spec: an element's total transmembrane current is
the sum of the contributions of the ohmic current specs on its patch. -/
def elementCurrent {σ : Type} (ocs : List (OhmicCurrentSpec σ))
    (counts : σ → ℤ) (V : ℝ) : ℝ :=
  (ocs.map fun oc => ohmicCurrent oc counts V).sum

/-- The fully-open potassium state `VGKC[Ko, Ko, Ko, Ko]` (`Ko` is state
index `0` of each subunit). -/
def VGKC_open : ChannelState 4 VGKC_sizes :=
  fun _ => ⟨0, by norm_num [VGKC_sizes]⟩

/-- The fully-open sodium state `VGNaC[Na_mo, Na_mo, Na_mo, Na_ha]`
(`Na_mo` is state index `0` of the `m` subunits at positions `0..2`,
`Na_ha` state index `1` of the `h` subunit at position `3`). -/
def VGNaC_open : ChannelState 4 VGNaC_sizes :=
  fun i => if i.val < 3 then ⟨0, by norm_num [VGNaC_sizes]⟩
    else ⟨1, by norm_num [VGNaC_sizes]⟩

/-- `VGKC_I = OhmicCurr.Create(VGKC[Ko,Ko,Ko,Ko], K_G, K_rev)` (line 158). -/
noncomputable def VGKC_I : OhmicCurrentSpec (ChannelState 4 VGKC_sizes) :=
  ⟨VGKC_open, K_G, K_rev⟩

/-- `VGNaC_I = OhmicCurr.Create(VGNaC[Na_mo,Na_mo,Na_mo,Na_ha], Na_G,
Na_rev)` (line 159). -/
noncomputable def VGNaC_I : OhmicCurrentSpec (ChannelState 4 VGNaC_sizes) :=
  ⟨VGNaC_open, Na_G, Na_rev⟩

/-- C8: the current of an ohmic current spec equals
`count_open * conductance * (V_local - V_reversal)` where `count_open` is
the population of the one designated open state: summing the per-state
contributions over all channel states gives exactly that value, every
non-open state contributes zero, and an element's total current is the sum
over its ohmic current specs; instantiated for the potassium `VGKC_I` and
sodium `VGNaC_I` current objects of the model. -/
theorem C8_ohmic_current :
    (∀ (σ : Type) [Fintype σ] [DecidableEq σ] (oc : OhmicCurrentSpec σ)
        (counts : σ → ℤ) (V : ℝ),
        (∑ s, stateCurrent oc counts V s =
          (counts oc.openState : ℝ) * oc.conductance * (V - oc.reversal)) ∧
        (∀ s, s ≠ oc.openState → stateCurrent oc counts V s = 0)) ∧
    (∀ (σ : Type) (ocs : List (OhmicCurrentSpec σ)) (counts : σ → ℤ)
        (V : ℝ),
        elementCurrent ocs counts V =
          (ocs.map fun oc => ohmicCurrent oc counts V).sum) ∧
    (∀ (counts : ChannelState 4 VGKC_sizes → ℤ) (V : ℝ),
        ohmicCurrent VGKC_I counts V =
          (counts VGKC_open : ℝ) * K_G * (V - K_rev)) ∧
    (∀ (counts : ChannelState 4 VGNaC_sizes → ℤ) (V : ℝ),
        ohmicCurrent VGNaC_I counts V =
          (counts VGNaC_open : ℝ) * Na_G * (V - Na_rev)) := by
  refine ⟨?_, fun σ ocs counts V => rfl, fun counts V => rfl,
    fun counts V => rfl⟩
  intro σ _ _ oc counts V
  constructor
  · rw [Finset.sum_eq_single oc.openState]
    · rw [stateCurrent, if_pos rfl]
    · intro s _ hs
      rw [stateCurrent, if_neg hs]
    · intro h
      exact absurd (Finset.mem_univ _) h
  · intro s hs
    rw [stateCurrent, if_neg hs]

end Ex4HH
